import Mathlib

set_option maxHeartbeats 1000000

/-!
Verification of the invoice-extraction service (src/app.py).

The Python program is shallowly embedded: JSON values become an inductive
type, the recursive normalizer clean_empty becomes a mutual recursive
function, the regex-based response parser parse_json becomes explicit
scanning functions over lists of characters, and the Flask upload handler
becomes a function over an environment of external oracles (libmagic,
the remote model, zipfile) returning an explicit response value.
-/

/-- JSON-like Python values as produced by json.loads: null, bools,
ints, finite floats (modelled as rationals), strings, lists, dicts
(association lists in insertion order), and the three non-finite float
constants Infinity, -Infinity and NaN that CPython's json.loads accepts
by default. -/
inductive Json where
  | null : Json
  | bool : Bool → Json
  | num : Int → Json
  | fnum : Rat → Json
  | str : String → Json
  | arr : List Json → Json
  | obj : List (String × Json) → Json
  | inf : Json
  | negInf : Json
  | nan : Json

/-- The membership test `v not in ("", None, [], {}, 0)` from clean_empty
(line 83 of app.py), negated.  Python `in` compares with `==`, so the
number test catches the int 0, the float 0.0 and the bool False. -/
def isEmptyVal : Json → Bool
  | Json.str s => s == ""
  | Json.null => true
  | Json.arr l => l.isEmpty
  | Json.obj l => l.isEmpty
  | Json.num n => n == 0
  | Json.fnum q => q == 0
  | Json.bool b => !b
  | Json.inf => false
  | Json.negInf => false
  | Json.nan => false

mutual

/-- clean_empty from app.py lines 81-86: dicts keep entries whose
original value is not "empty" and recursively clean the kept values;
lists likewise; scalars pass through. -/
def clean_empty : Json → Json
  | Json.obj l => Json.obj (cleanFields l)
  | Json.arr l => Json.arr (cleanItems l)
  | j => j

/-- The dict comprehension of clean_empty: filter on the original value,
then recurse on the kept values. -/
def cleanFields : List (String × Json) → List (String × Json)
  | [] => []
  | (k, v) :: rest =>
    if isEmptyVal v then cleanFields rest
    else (k, clean_empty v) :: cleanFields rest

/-- The list comprehension of clean_empty: filter on the original
element, then recurse on the kept elements. -/
def cleanItems : List Json → List Json
  | [] => []
  | v :: rest =>
    if isEmptyVal v then cleanItems rest
    else clean_empty v :: cleanItems rest

end

mutual

/-- Modelled from the spec: the pruning law of spec section 8 — every
key (and sequence element) present in a value, at every depth, carries a
non-empty value.  Used to compare the spec's claim with clean_empty. -/
def specPrunedLaw : Json → Bool
  | Json.obj l => specPrunedFields l
  | Json.arr l => specPrunedItems l
  | _ => true

/-- Spec-side checker for dict entries: value non-empty and recursively
law-abiding. -/
def specPrunedFields : List (String × Json) → Bool
  | [] => true
  | (_, v) :: rest => !isEmptyVal v && specPrunedLaw v && specPrunedFields rest

/-- Spec-side checker for list elements. -/
def specPrunedItems : List Json → Bool
  | [] => true
  | v :: rest => !isEmptyVal v && specPrunedLaw v && specPrunedItems rest

end

/-- A scalar value: one clean_empty leaves unchanged. -/
def isScalar : Json → Bool
  | Json.obj _ => false
  | Json.arr _ => false
  | _ => true

/-- A flat value: a scalar, or a dict or list all of whose members are
scalars. -/
def isFlat : Json → Bool
  | Json.obj l => l.all (fun p => isScalar p.2)
  | Json.arr l => l.all isScalar
  | j => isScalar j

theorem clean_empty_scalar (j : Json) (h : isScalar j = true) :
    clean_empty j = j := by
  cases j <;> simp [isScalar] at h <;> rfl

theorem cleanFields_filter_map (l : List (String × Json)) :
    cleanFields l =
      (l.filter (fun p => !isEmptyVal p.2)).map (fun p => (p.1, clean_empty p.2)) := by
  induction l with
  | nil => rfl
  | cons p rest ih =>
    obtain ⟨k, v⟩ := p
    by_cases h : isEmptyVal v
    · simp [cleanFields, h, List.filter, ih]
    · simp [cleanFields, h, List.filter, ih]

theorem cleanItems_filter_map (l : List Json) :
    cleanItems l = (l.filter (fun v => !isEmptyVal v)).map clean_empty := by
  induction l with
  | nil => rfl
  | cons v rest ih =>
    by_cases h : isEmptyVal v
    · simp [cleanItems, h, List.filter, ih]
    · simp [cleanItems, h, List.filter, ih]

/-- C1 counterexample: the spec's pruning law fails on the code.  For the
record {"a": {"b": 0}} the key "a" is kept (its original value is a
non-empty dict) but its normalized value is the empty dict, so the
normalized output contains a key whose value is empty. -/
theorem c1_counterexample :
    specPrunedLaw (clean_empty (Json.obj [("a", Json.obj [("b", Json.num 0)])])) = false := by
  decide

/-- C1 amended: clean_empty prunes a key (or sequence element) exactly
when its ORIGINAL value is empty — "", null, [], {} or 0 — and then
normalizes the kept values recursively; hence every key present in the
output stems from a key whose pre-normalization value was non-empty,
while the post-normalization value may itself be empty. -/
theorem c1_amended :
    (∀ l : List (String × Json),
        cleanFields l =
          (l.filter (fun p => !isEmptyVal p.2)).map (fun p => (p.1, clean_empty p.2))) ∧
    (∀ l : List Json,
        cleanItems l = (l.filter (fun v => !isEmptyVal v)).map clean_empty) ∧
    (∀ (l : List (String × Json)) (p : String × Json), p ∈ cleanFields l →
        ∃ v₀, (p.1, v₀) ∈ l ∧ isEmptyVal v₀ = false ∧ p.2 = clean_empty v₀) ∧
    (∀ (l : List Json) (v : Json), v ∈ cleanItems l →
        ∃ v₀, v₀ ∈ l ∧ isEmptyVal v₀ = false ∧ v = clean_empty v₀) := by
  refine ⟨cleanFields_filter_map, cleanItems_filter_map, ?_, ?_⟩
  · intro l p hp
    rw [cleanFields_filter_map] at hp
    simp only [List.mem_map, List.mem_filter] at hp
    obtain ⟨⟨k, v₀⟩, ⟨hmem, hne⟩, hpe⟩ := hp
    refine ⟨v₀, ?_, ?_, ?_⟩
    · rw [← hpe]; exact hmem
    · simpa using hne
    · rw [← hpe]
  · intro l v hv
    rw [cleanItems_filter_map] at hv
    simp only [List.mem_map, List.mem_filter] at hv
    obtain ⟨v₀, ⟨hmem, hne⟩, hve⟩ := hv
    exact ⟨v₀, hmem, by simpa using hne, hve.symm⟩

/-- C1 amended, witness: concrete instance of the kept-key law. -/
theorem c1_amended_witness :
    ∃ v₀, ("a", v₀) ∈ [("a", Json.num 3)] ∧ isEmptyVal v₀ = false ∧
      Json.num 3 = clean_empty v₀ :=
  c1_amended.2.2.1 [("a", Json.num 3)] ("a", Json.num 3)
    (by simp [cleanFields, isEmptyVal, clean_empty])

/-- C2 counterexample: clean_empty is not idempotent.  One application
turns {"a": {"b": 0}} into {"a": {}}; a second application prunes the
now-empty inner dict and yields {}. -/
theorem c2_counterexample :
    clean_empty (clean_empty (Json.obj [("a", Json.obj [("b", Json.num 0)])])) ≠
      clean_empty (Json.obj [("a", Json.obj [("b", Json.num 0)])]) := by
  have h1 : clean_empty (clean_empty (Json.obj [("a", Json.obj [("b", Json.num 0)])])) =
      Json.obj [] := rfl
  have h2 : clean_empty (Json.obj [("a", Json.obj [("b", Json.num 0)])]) =
      Json.obj [("a", Json.obj [])] := rfl
  intro h
  rw [h1, h2] at h
  injection h with h'
  simp at h'

theorem cleanFields_flat_idem (l : List (String × Json))
    (h : ∀ p ∈ l, isScalar p.2 = true) :
    cleanFields (cleanFields l) = cleanFields l := by
  induction l with
  | nil => rfl
  | cons p rest ih =>
    obtain ⟨k, v⟩ := p
    have hv : isScalar v = true := h (k, v) (List.mem_cons_self _ _)
    have hrest : ∀ p ∈ rest, isScalar p.2 = true :=
      fun p hp => h p (List.mem_cons_of_mem _ hp)
    by_cases he : isEmptyVal v
    · simp [cleanFields, he, ih hrest]
    · simp [cleanFields, he, clean_empty_scalar v hv, ih hrest]

theorem cleanItems_flat_idem (l : List Json)
    (h : ∀ v ∈ l, isScalar v = true) :
    cleanItems (cleanItems l) = cleanItems l := by
  induction l with
  | nil => rfl
  | cons v rest ih =>
    have hv : isScalar v = true := h v (List.mem_cons_self _ _)
    have hrest : ∀ w ∈ rest, isScalar w = true :=
      fun w hw => h w (List.mem_cons_of_mem _ hw)
    by_cases he : isEmptyVal v
    · simp [cleanItems, he, ih hrest]
    · simp [cleanItems, he, clean_empty_scalar v hv, ih hrest]

/-- C2 amended: clean_empty is idempotent on flat values — scalars, and
mappings or sequences all of whose members are scalars.  (In general a
second application can prune further, since nested containers emptied by
the first pass are only removed by the next one.) -/
theorem c2_amended (j : Json) (h : isFlat j = true) :
    clean_empty (clean_empty j) = clean_empty j := by
  cases j with
  | obj l =>
    have h' : ∀ p ∈ l, isScalar p.2 = true := by
      have hall : l.all (fun p => isScalar p.2) = true := by simpa [isFlat] using h
      intro p hp
      exact List.all_eq_true.mp hall p hp
    simp [clean_empty, cleanFields_flat_idem l h']
  | arr l =>
    have h' : ∀ v ∈ l, isScalar v = true := by
      simpa [isFlat, List.all_eq_true] using h
    simp [clean_empty, cleanItems_flat_idem l h']
  | null => rfl
  | bool b => rfl
  | num n => rfl
  | fnum q => rfl
  | str s => rfl
  | inf => rfl
  | negInf => rfl
  | nan => rfl

/-- C2 amended, witness: idempotence at a concrete flat record. -/
theorem c2_amended_witness :
    clean_empty (clean_empty (Json.obj [("a", Json.num 5), ("b", Json.str "")])) =
      clean_empty (Json.obj [("a", Json.num 5), ("b", Json.str "")]) :=
  c2_amended (Json.obj [("a", Json.num 5), ("b", Json.str "")]) (by decide)

/-- C9: the emptiness test compares with 0 via Python equality, so the
bool False and the float 0.0 are pruned from dicts and lists exactly like
the int 0, while the bool True passes through unchanged. -/
theorem c9_zero_like_pruning :
    ∀ (k : String) (rest : List (String × Json)) (l : List Json),
      cleanFields ((k, Json.bool false) :: rest) = cleanFields rest ∧
      cleanFields ((k, Json.fnum 0) :: rest) = cleanFields rest ∧
      cleanFields ((k, Json.num 0) :: rest) = cleanFields rest ∧
      cleanFields ((k, Json.bool true) :: rest) =
        (k, Json.bool true) :: cleanFields rest ∧
      cleanItems (Json.bool false :: l) = cleanItems l ∧
      cleanItems (Json.fnum 0 :: l) = cleanItems l ∧
      cleanItems (Json.num 0 :: l) = cleanItems l ∧
      cleanItems (Json.bool true :: l) = Json.bool true :: cleanItems l ∧
      clean_empty (Json.bool true) = Json.bool true := by
  intro k rest l
  refine ⟨?_, ?_, ?_, ?_, ?_, ?_, ?_, ?_, rfl⟩ <;>
    simp [cleanFields, cleanItems, isEmptyVal, clean_empty]

/-! ### Response Parser (parse_json, app.py lines 36-50)

The two regular expressions are embedded as explicit scanning functions:
the fenced pattern with its lazy group, and the greedy unfenced brace
span.  json.loads is embedded as a recursive-descent decoder following
CPython's default decoder: ints and floats (with fractions and
exponents, leading zeros rejected), the NaN, Infinity and -Infinity
constants, strings with the simple and \u escapes under strict mode
(raw control characters rejected, surrogate pairs combined), arrays,
objects with duplicate keys keeping the first position and the last
value as CPython's dict building does, and only the JSON whitespace
[ tab lf cr] between tokens (the regex scanning, by contrast, uses
re's wider \s class). -/

/-- Python's \s character class for str patterns: ASCII whitespace,
the bidi separators x1c-x1f and x85, and the Unicode space
characters. -/
def isWs (c : Char) : Bool :=
  c == ' ' || c == '\t' || c == '\n' || c == '\r' || c == '\x0b' || c == '\x0c' ||
  c == '\x1c' || c == '\x1d' || c == '\x1e' || c == '\x1f' || c == '\x85' ||
  c == '\xa0' || c == '\u1680' || (8192 ≤ c.toNat && c.toNat ≤ 8202) ||
  c == '\u2028' || c == '\u2029' || c == '\u202f' || c == '\u205f' || c == '\u3000'

/-- The whitespace json.loads itself skips between tokens (CPython's
WHITESPACE regex [ \t\n\r] — narrower than re's \s). -/
def isJsonWs (c : Char) : Bool :=
  c == ' ' || c == '\t' || c == '\n' || c == '\r'

/-- Hexadecimal digit value, for \u escapes. -/
def hexVal (c : Char) : Option Nat :=
  if c.isDigit then some (c.toNat - 48)
  else if 'a' ≤ c ∧ c ≤ 'f' then some (c.toNat - 87)
  else if 'A' ≤ c ∧ c ≤ 'F' then some (c.toNat - 55)
  else none

/-- Single-character JSON string escapes. -/
def escSimple : Char → Option Char
  | '"' => some '"'
  | '\\' => some '\\'
  | '/' => some '/'
  | 'b' => some '\x08'
  | 'f' => some '\x0c'
  | 'n' => some '\n'
  | 'r' => some '\r'
  | 't' => some '\t'
  | _ => none

/-- Lexing pass of a JSON string body after the opening quote: the
sequence of code units, with each escape decoded and each raw character
checked against CPython's strict=True rule (json.loads's default, the
form used at app.py line 47) that raw control characters below x20 are
rejected. -/
def lexStrUnits : List Char → Option (List Nat × List Char)
  | [] => none
  | '"' :: r => some ([], r)
  | '\\' :: 'u' :: a :: b :: c :: d :: r =>
    match hexVal a, hexVal b, hexVal c, hexVal d with
    | some ha, some hb, some hc, some hd =>
      match lexStrUnits r with
      | some (us, r2) =>
        some ((((ha * 16 + hb) * 16 + hc) * 16 + hd) :: us, r2)
      | none => none
    | _, _, _, _ => none
  | '\\' :: e :: r =>
    match escSimple e with
    | some ch =>
      match lexStrUnits r with
      | some (us, r2) => some (ch.toNat :: us, r2)
      | none => none
    | none => none
  | c :: r =>
    if c.toNat < 32 then none
    else
      match lexStrUnits r with
      | some (us, r2) => some (c.toNat :: us, r2)
      | none => none

/-- Surrogate pairing over the code units, left to right as CPython's
scanstring does: a \u high surrogate immediately followed by a \u low
surrogate combines into one astral character.  (A lone surrogate, which
Python keeps as an unpaired code unit, has no Lean Char; Char.ofNat
maps it to the null character.  Raw characters are never surrogates, so
only escape-produced units can pair.) -/
def pairSurrogates : List Nat → List Char
  | [] => []
  | [n] => [Char.ofNat n]
  | n :: m :: rest =>
    if (55296 ≤ n ∧ n ≤ 56319) ∧ (56320 ≤ m ∧ m ≤ 57343) then
      Char.ofNat (65536 + (n - 55296) * 1024 + (m - 56320)) ::
        pairSurrogates rest
    else Char.ofNat n :: pairSurrogates (m :: rest)

/-- Body of a JSON string after the opening quote: returns the decoded
characters and the input after the closing quote. -/
def parseStrChars (l : List Char) : Option (List Char × List Char) :=
  match lexStrUnits l with
  | some (us, r) => some (pairSurrogates us, r)
  | none => none

/-- Decimal digits to a natural number. -/
def digitsToNat (l : List Char) : Nat :=
  l.foldl (fun a c => 10 * a + (c.toNat - 48)) 0

/-- Exponent digits with optional sign (after the e/E marker). -/
def parseExpTail (l : List Char) : Option (Int × List Char) :=
  let p : Bool × List Char :=
    match l with
    | '+' :: r => (false, r)
    | '-' :: r => (true, r)
    | _ => (false, l)
  let ds := p.2.takeWhile (fun c => c.isDigit)
  let rest := p.2.dropWhile (fun c => c.isDigit)
  if ds.isEmpty then none
  else if p.1 then some (-(digitsToNat ds : Int), rest)
  else some ((digitsToNat ds : Int), rest)

/-- Optional exponent part of a JSON number. -/
def parseExp : List Char → Option (Int × List Char)
  | 'e' :: r => parseExpTail r
  | 'E' :: r => parseExpTail r
  | l => some (0, l)

/-- Integer value of a sign and digit list. -/
def intOfParts (neg : Bool) (ds : List Char) : Int :=
  if neg then -(digitsToNat ds : Int) else (digitsToNat ds : Int)

/-- Rational value of a JSON float literal: sign, integer digits,
fraction digits and exponent. -/
def ratOfParts (neg : Bool) (ds fs : List Char) (e : Int) : Rat :=
  let m : Rat :=
    ((digitsToNat ds * 10 ^ fs.length + digitsToNat fs : Nat) : Rat) /
      ((10 : Rat) ^ fs.length)
  let q := m * (10 : Rat) ^ e
  if neg then -q else q

/-- A JSON number token: int when it has no fraction and no exponent,
float otherwise, with the leading-zero restriction of the JSON grammar. -/
def parseNumTok (l : List Char) : Option (Json × List Char) :=
  let p : Bool × List Char :=
    match l with
    | '-' :: r => (true, r)
    | _ => (false, l)
  let ds := p.2.takeWhile (fun c => c.isDigit)
  let r1 := p.2.dropWhile (fun c => c.isDigit)
  if ds.isEmpty then none
  else if 2 ≤ ds.length ∧ ds.headD '0' == '0' then none
  else
    match r1 with
    | '.' :: r2 =>
      let fs := r2.takeWhile (fun c => c.isDigit)
      let r3 := r2.dropWhile (fun c => c.isDigit)
      if fs.isEmpty then none
      else
        match parseExp r3 with
        | some (e, r4) => some (Json.fnum (ratOfParts p.1 ds fs e), r4)
        | none => none
    | 'e' :: _ =>
      match parseExp r1 with
      | some (e, r4) => some (Json.fnum (ratOfParts p.1 ds [] e), r4)
      | none => none
    | 'E' :: _ =>
      match parseExp r1 with
      | some (e, r4) => some (Json.fnum (ratOfParts p.1 ds [] e), r4)
      | none => none
    | _ => some (Json.num (intOfParts p.1 ds), r1)

/-- Python dict assignment d[k] = v: overwrite in place if the key
exists, else append at the end. -/
def setKey (l : List (String × Json)) (k : String) (v : Json) :
    List (String × Json) :=
  if l.any (fun p => p.1 == k) then
    l.map (fun p => if p.1 == k then (k, v) else p)
  else l ++ [(k, v)]

mutual

/-- JSON value (fuel-indexed recursive descent), including the NaN,
Infinity and -Infinity constants CPython's json.loads accepts with its
default parse_constant. -/
def parseVal : Nat → List Char → Option (Json × List Char)
  | 0, _ => none
  | fuel + 1, l =>
    match l.dropWhile isJsonWs with
    | 'n' :: 'u' :: 'l' :: 'l' :: r => some (Json.null, r)
    | 't' :: 'r' :: 'u' :: 'e' :: r => some (Json.bool true, r)
    | 'f' :: 'a' :: 'l' :: 's' :: 'e' :: r => some (Json.bool false, r)
    | 'N' :: 'a' :: 'N' :: r => some (Json.nan, r)
    | 'I' :: 'n' :: 'f' :: 'i' :: 'n' :: 'i' :: 't' :: 'y' :: r =>
      some (Json.inf, r)
    | '-' :: 'I' :: 'n' :: 'f' :: 'i' :: 'n' :: 'i' :: 't' :: 'y' :: r =>
      some (Json.negInf, r)
    | '"' :: r =>
      match parseStrChars r with
      | some (cs, r2) => some (Json.str (String.mk cs), r2)
      | none => none
    | '{' :: r => parseObjBody fuel r
    | '[' :: r => parseArrBody fuel r
    | l2 => parseNumTok l2

/-- Object body after the opening brace. -/
def parseObjBody : Nat → List Char → Option (Json × List Char)
  | 0, _ => none
  | fuel + 1, l =>
    match l.dropWhile isJsonWs with
    | '}' :: r => some (Json.obj [], r)
    | _ => parseMembers fuel l []

/-- Non-empty member list of an object. -/
def parseMembers : Nat → List Char → List (String × Json) →
    Option (Json × List Char)
  | 0, _, _ => none
  | fuel + 1, l, acc =>
    match l.dropWhile isJsonWs with
    | '"' :: r =>
      match parseStrChars r with
      | some (cs, r2) =>
        match r2.dropWhile isJsonWs with
        | ':' :: r3 =>
          match parseVal fuel r3 with
          | some (v, r4) =>
            match r4.dropWhile isJsonWs with
            | ',' :: r5 => parseMembers fuel r5 (setKey acc (String.mk cs) v)
            | '}' :: r5 => some (Json.obj (setKey acc (String.mk cs) v), r5)
            | _ => none
          | none => none
        | _ => none
      | none => none
    | _ => none

/-- Array body after the opening bracket. -/
def parseArrBody : Nat → List Char → Option (Json × List Char)
  | 0, _ => none
  | fuel + 1, l =>
    match l.dropWhile isJsonWs with
    | ']' :: r => some (Json.arr [], r)
    | _ => parseItems fuel l []

/-- Non-empty element list of an array. -/
def parseItems : Nat → List Char → List Json → Option (Json × List Char)
  | 0, _, _ => none
  | fuel + 1, l, acc =>
    match parseVal fuel l with
    | some (v, r) =>
      match r.dropWhile isJsonWs with
      | ',' :: r2 => parseItems fuel r2 (acc ++ [v])
      | ']' :: r2 => some (Json.arr (acc ++ [v]), r2)
      | _ => none
    | none => none

end

/-- json.loads: parse one value and require only whitespace after it. -/
def json_loads (l : List Char) : Option Json :=
  match parseVal (3 * l.length + 4) l with
  | some (j, rest) => if (rest.dropWhile isJsonWs).isEmpty then some j else none
  | none => none

/-- The literal "```json" looked for by parse_json. -/
def fenceTag : List Char := "```json".data

/-- Tail test of the fenced regex after the group's closing brace:
\s* then the closing fence.  Both quantifier choices of \s* coincide
here because a backtick is not whitespace. -/
def fenceClose (l : List Char) : Bool :=
  "```".data.isPrefixOf (l.dropWhile isWs)

/-- The lazy group interior: shortest prefix whose following closing
brace is followed by the closing fence. -/
def lazySpan : List Char → Option (List Char)
  | [] => none
  | c :: rest =>
    if c == '}' && fenceClose rest then some []
    else
      match lazySpan rest with
      | some t => some (c :: t)
      | none => none

/-- Match of the fenced pattern at one start position, after the
"```json" literal: \s*, then the brace group. -/
def fenceAt (l : List Char) : Option (List Char) :=
  match l.dropWhile isWs with
  | c :: rest =>
    if c == '{' then
      match lazySpan rest with
      | some mid => some ('{' :: (mid ++ ['}']))
      | none => none
    else none
  | [] => none

/-- re.search of the fenced pattern: leftmost start position at which
the whole pattern matches; returns group 1. -/
def findFenced : List Char → Option (List Char)
  | [] => none
  | c :: rest =>
    if fenceTag.isPrefixOf (c :: rest) then
      match fenceAt ((c :: rest).drop 7) with
      | some g => some g
      | none => findFenced rest
    else findFenced rest

/-- Longest prefix ending in a closing brace, i.e. the greedy .* of the
unfenced pattern up to the last brace of the text. -/
def lastBraceTo : List Char → Option (List Char)
  | [] => none
  | c :: rest =>
    match lastBraceTo rest with
    | some t => some (c :: t)
    | none => if c == '}' then some [c] else none

/-- re.search of the greedy unfenced pattern: from the first opening
brace that is followed by some closing brace, to the last such brace. -/
def greedySearch : List Char → Option (List Char)
  | [] => none
  | c :: rest =>
    if c == '{' then
      match lastBraceTo rest with
      | some t => some ('{' :: t)
      | none => greedySearch rest
    else greedySearch rest

/-- Python's substring test `p in s`. -/
def containsSub (p : List Char) : List Char → Bool
  | [] => p.isEmpty
  | c :: rest => p.isPrefixOf (c :: rest) || containsSub p rest

/-- parse_json from app.py lines 36-50: fenced extraction when the text
mentions "```json" (group 1), greedy brace span otherwise (group 0);
decode failures and missing matches give None. -/
def parse_json (text : List Char) : Option Json :=
  if containsSub fenceTag text then
    match findFenced text with
    | some span => json_loads span
    | none => none
  else
    match greedySearch text with
    | some span => json_loads span
    | none => none

mutual

/-- Canonical serializer for Json values, used to state the round-trip
property of parse_json (strings are emitted unescaped, so the
round-trip hypotheses restrict them to escape-free content). -/
def encodeJson : Json → List Char
  | Json.null => "null".data
  | Json.bool true => "true".data
  | Json.bool false => "false".data
  | Json.num n => (toString n).data
  | Json.fnum q => (toString q).data
  | Json.str s => '"' :: (s.data ++ ['"'])
  | Json.arr l => '[' :: (encodeItems l ++ [']'])
  | Json.obj l => '{' :: (encodeFieldList l ++ ['}'])
  | Json.inf => "Infinity".data
  | Json.negInf => "-Infinity".data
  | Json.nan => "NaN".data

/-- Comma-separated encoded array elements. -/
def encodeItems : List Json → List Char
  | [] => []
  | [j] => encodeJson j
  | j :: js => encodeJson j ++ ',' :: encodeItems js

/-- Comma-separated encoded object members. -/
def encodeFieldList : List (String × Json) → List Char
  | [] => []
  | [(k, v)] => '"' :: (k.data ++ '"' :: ':' :: encodeJson v)
  | (k, v) :: rest =>
    ('"' :: (k.data ++ '"' :: ':' :: encodeJson v)) ++ ',' :: encodeFieldList rest

end

/-! ### Round-trip properties of parse_json (C4) -/

theorem ws_dropWhile_append (ws l : List Char) (h : ∀ c ∈ ws, isWs c = true) :
    (ws ++ l).dropWhile isWs = l.dropWhile isWs := by
  induction ws with
  | nil => rfl
  | cons c rest ih =>
    have hc : isWs c = true := h c (List.mem_cons_self _ _)
    simp only [List.cons_append, List.dropWhile_cons_of_pos hc]
    exact ih (fun d hd => h d (List.mem_cons_of_mem _ hd))

theorem dropWhile_append_ne_nil (l₁ l₂ : List Char)
    (h : l₁.dropWhile isWs ≠ []) :
    (l₁ ++ l₂).dropWhile isWs = l₁.dropWhile isWs ++ l₂ := by
  induction l₁ with
  | nil => exact absurd rfl h
  | cons c rest ih =>
    by_cases hc : isWs c = true
    · rw [List.dropWhile_cons_of_pos hc] at h
      simp only [List.cons_append, List.dropWhile_cons_of_pos hc]
      exact ih h
    · simp only [List.cons_append, List.dropWhile_cons_of_neg hc]

theorem mem_of_dropWhile_eq_cons (l : List Char) (c : Char) (r : List Char)
    (h : l.dropWhile isWs = c :: r) : c ∈ l ∧ isWs c = false := by
  induction l with
  | nil => simp at h
  | cons a rest ih =>
    by_cases ha : isWs a = true
    · rw [List.dropWhile_cons_of_pos ha] at h
      obtain ⟨hm, hw⟩ := ih h
      exact ⟨List.mem_cons_of_mem _ hm, hw⟩
    · rw [List.dropWhile_cons_of_neg ha] at h
      injection h with h1 h2
      subst h1
      exact ⟨List.mem_cons_self _ _, by simpa using ha⟩

theorem dropWhile_ne_nil_of_mem (l : List Char) (c : Char) (hc : c ∈ l)
    (hw : isWs c = false) : l.dropWhile isWs ≠ [] := by
  induction l with
  | nil => cases hc
  | cons a rest ih =>
    by_cases ha : isWs a = true
    · rw [List.dropWhile_cons_of_pos ha]
      rcases List.mem_cons.mp hc with h1 | h2
      · subst h1; simp [hw] at ha
      · exact ih h2
    · rw [List.dropWhile_cons_of_neg ha]; simp

theorem fenceClose_false (b t : List Char) (hb : '`' ∉ b)
    (c : Char) (hc : c ∈ b) (hw : isWs c = false) :
    fenceClose (b ++ t) = false := by
  have hne : b.dropWhile isWs ≠ [] := dropWhile_ne_nil_of_mem b c hc hw
  unfold fenceClose
  rw [dropWhile_append_ne_nil b t hne]
  obtain ⟨d, r, hd⟩ : ∃ d r, b.dropWhile isWs = d :: r := by
    cases hbd : b.dropWhile isWs with
    | nil => exact absurd hbd hne
    | cons d r => exact ⟨d, r, rfl⟩
  rw [hd]
  obtain ⟨hdm, _⟩ := mem_of_dropWhile_eq_cons b d r hd
  have hdb : ('`' == d) = false := by
    refine beq_eq_false_iff_ne.mpr ?_
    intro h
    exact hb (h ▸ hdm)
  show ("```".data).isPrefixOf (d :: (r ++ t)) = false
  have h3 : "```".data = '`' :: '`' :: '`' :: [] := rfl
  rw [h3]
  simp [List.isPrefixOf, hdb]

theorem lazySpan_exact (mid tail0 : List Char) (hmid : '`' ∉ mid)
    (hclose : fenceClose tail0 = true) :
    lazySpan (mid ++ '}' :: tail0) = some mid := by
  induction mid with
  | nil =>
    show lazySpan ('}' :: tail0) = some []
    unfold lazySpan
    rw [hclose]
    simp
  | cons c m ih =>
    have hm : '`' ∉ m := fun h => hmid (List.mem_cons_of_mem _ h)
    have hcb : c ≠ '`' := fun h => hmid (by rw [h]; exact List.mem_cons_self _ _)
    show lazySpan (c :: (m ++ '}' :: tail0)) = some (c :: m)
    unfold lazySpan
    by_cases hcc : c = '}'
    · subst hcc
      have hb : '`' ∉ m ++ ['}'] := by
        intro hx
        rcases List.mem_append.mp hx with h1 | h2
        · exact hm h1
        · simp at h2
      have hfc : fenceClose (m ++ '}' :: tail0) = false := by
        have := fenceClose_false (m ++ ['}']) tail0 hb '}' (by simp) (by decide)
        simpa using this
      rw [hfc]
      simp [ih hm]
    · have hne : (c == '}') = false := beq_eq_false_iff_ne.mpr hcc
      rw [hne]
      simp [ih hm]

theorem fenceAt_exact (ws1 mid tail0 : List Char)
    (hws : ∀ c ∈ ws1, isWs c = true) (hmid : '`' ∉ mid)
    (hclose : fenceClose tail0 = true) :
    fenceAt (ws1 ++ '{' :: (mid ++ '}' :: tail0)) =
      some ('{' :: (mid ++ ['}'])) := by
  unfold fenceAt
  rw [ws_dropWhile_append _ _ hws]
  rw [List.dropWhile_cons_of_neg (by decide : ¬ isWs '{' = true)]
  show (if '{' == '{' then
      match lazySpan (mid ++ '}' :: tail0) with
      | some m => some ('{' :: (m ++ ['}']))
      | none => none
    else none) = some ('{' :: (mid ++ ['}']))
  rw [lazySpan_exact mid tail0 hmid hclose]
  rfl

theorem findFenced_cons_pos (c : Char) (rest : List Char)
    (h : fenceTag.isPrefixOf (c :: rest) = true) (g : List Char)
    (hg : fenceAt ((c :: rest).drop 7) = some g) :
    findFenced (c :: rest) = some g := by
  unfold findFenced
  rw [h, hg]
  simp

theorem findFenced_skip (pre tl : List Char) (hpre : '`' ∉ pre) :
    findFenced (pre ++ tl) = findFenced tl := by
  induction pre with
  | nil => rfl
  | cons c p ih =>
    have hc : c ≠ '`' := fun h => hpre (h ▸ List.mem_cons_self _ _)
    have hp : '`' ∉ p := fun h => hpre (List.mem_cons_of_mem _ h)
    show findFenced (c :: (p ++ tl)) = findFenced tl
    rw [findFenced]
    have hpf : fenceTag.isPrefixOf (c :: (p ++ tl)) = false := by
      have h1 : ('`' == c) = false :=
        beq_eq_false_iff_ne.mpr (fun h => hc h.symm)
      show (("```json".data).isPrefixOf (c :: (p ++ tl))) = false
      have h2 : "```json".data = '`' :: "``json".data := rfl
      rw [h2]
      simp [List.isPrefixOf, h1]
    rw [hpf, if_neg (by simp : ¬ (false = true))]
    exact ih hp

theorem containsSub_tag (a b : List Char) :
    containsSub fenceTag (a ++ (fenceTag ++ b)) = true := by
  induction a with
  | nil =>
    show containsSub fenceTag (fenceTag ++ b) = true
    have h1 : fenceTag ++ b = '`' :: ("``json".data ++ b) := rfl
    rw [h1, containsSub]
    have h2 : fenceTag.isPrefixOf ('`' :: ("``json".data ++ b)) = true := by
      rw [← h1]
      simp [List.isPrefixOf_iff_prefix]
    rw [h2]
    simp
  | cons c a' ih =>
    show containsSub fenceTag (c :: (a' ++ (fenceTag ++ b))) = true
    rw [containsSub, ih]
    simp

theorem lastBraceTo_none (l : List Char) (h : '}' ∉ l) :
    lastBraceTo l = none := by
  induction l with
  | nil => rfl
  | cons c r ih =>
    have hc : (c == '}') = false :=
      beq_eq_false_iff_ne.mpr (fun hx => h (hx ▸ List.mem_cons_self _ _))
    have hr : '}' ∉ r := fun hx => h (List.mem_cons_of_mem _ hx)
    rw [lastBraceTo, ih hr, hc]
    simp

theorem lastBraceTo_exact (m post : List Char) (h : '}' ∉ post) :
    lastBraceTo (m ++ '}' :: post) = some (m ++ ['}']) := by
  induction m with
  | nil =>
    show lastBraceTo ('}' :: post) = some ['}']
    rw [lastBraceTo, lastBraceTo_none post h]
    simp
  | cons c m' ih =>
    show lastBraceTo (c :: (m' ++ '}' :: post)) = some (c :: (m' ++ ['}']))
    rw [lastBraceTo, ih]

theorem greedySearch_skip (pre tl : List Char) (hpre : '{' ∉ pre) :
    greedySearch (pre ++ tl) = greedySearch tl := by
  induction pre with
  | nil => rfl
  | cons c p ih =>
    have hc : (c == '{') = false :=
      beq_eq_false_iff_ne.mpr (fun h => hpre (h ▸ List.mem_cons_self _ _))
    have hp : '{' ∉ p := fun h => hpre (List.mem_cons_of_mem _ h)
    show greedySearch (c :: (p ++ tl)) = greedySearch tl
    rw [greedySearch, hc, if_neg (by simp : ¬ (false = true))]
    exact ih hp

theorem greedySearch_at (mid post : List Char) (hpost : '}' ∉ post) :
    greedySearch ('{' :: (mid ++ '}' :: post)) = some ('{' :: (mid ++ ['}'])) := by
  rw [greedySearch, lastBraceTo_exact mid post hpost]
  simp

/-- C4: round trip of the Response Parser.  Fenced case: for any object
J and any well-formed fenced reply — a prefix free of backticks, the
"```json" tag, whitespace, the serialized object (backtick-free), more
whitespace, the closing fence and an arbitrary tail — parse_json
recovers exactly J (given that the serialized object decodes to J).
Unfenced case: for a reply with no fence tag whose single brace span is
the serialized object (no opening brace before it, no closing brace
after it), parse_json recovers exactly J. -/
theorem c4_parse_json_round_trip :
    (∀ (fl : List (String × Json)) (pre ws1 ws2 post : List Char),
      '`' ∉ pre → (∀ c ∈ ws1, isWs c = true) → (∀ c ∈ ws2, isWs c = true) →
      '`' ∉ encodeJson (Json.obj fl) →
      json_loads (encodeJson (Json.obj fl)) = some (Json.obj fl) →
      parse_json (pre ++ (fenceTag ++ (ws1 ++ (encodeJson (Json.obj fl) ++
          (ws2 ++ ("```".data ++ post)))))) = some (Json.obj fl)) ∧
    (∀ (fl : List (String × Json)) (pre post : List Char),
      '{' ∉ pre → '}' ∉ post →
      containsSub fenceTag (pre ++ (encodeJson (Json.obj fl) ++ post)) = false →
      json_loads (encodeJson (Json.obj fl)) = some (Json.obj fl) →
      parse_json (pre ++ (encodeJson (Json.obj fl) ++ post)) = some (Json.obj fl)) := by
  constructor
  · intro fl pre ws1 ws2 post hpre hws1 hws2 henc hdec
    have hobj : encodeJson (Json.obj fl) = '{' :: (encodeFieldList fl ++ ['}']) := rfl
    have hmid : '`' ∉ encodeFieldList fl := by
      intro hx
      apply henc
      rw [hobj]
      exact List.mem_cons_of_mem _ (List.mem_append_left _ hx)
    have hshape : encodeJson (Json.obj fl) ++ (ws2 ++ ("```".data ++ post)) =
        '{' :: (encodeFieldList fl ++ '}' :: (ws2 ++ ("```".data ++ post))) := by
      rw [hobj]
      simp
    have hclose : fenceClose (ws2 ++ ("```".data ++ post)) = true := by
      unfold fenceClose
      rw [ws_dropWhile_append _ _ hws2]
      have h1 : "```".data ++ post = '`' :: ("``".data ++ post) := rfl
      rw [h1, List.dropWhile_cons_of_neg (by decide : ¬ isWs '`' = true), ← h1]
      simp [List.isPrefixOf_iff_prefix]
    have hcontains : containsSub fenceTag (pre ++ (fenceTag ++ (ws1 ++
        (encodeJson (Json.obj fl) ++ (ws2 ++ ("```".data ++ post)))))) = true :=
      containsSub_tag pre _
    have hfind : findFenced (pre ++ (fenceTag ++ (ws1 ++
        (encodeJson (Json.obj fl) ++ (ws2 ++ ("```".data ++ post)))))) =
        some (encodeJson (Json.obj fl)) := by
      rw [findFenced_skip pre _ hpre]
      have hsplit : fenceTag ++ (ws1 ++ (encodeJson (Json.obj fl) ++
          (ws2 ++ ("```".data ++ post)))) =
          '`' :: ('`' :: ('`' :: ('j' :: ('s' :: ('o' :: ('n' :: (ws1 ++
            (encodeJson (Json.obj fl) ++ (ws2 ++ ("```".data ++ post)))))))))) := rfl
      rw [hsplit]
      apply findFenced_cons_pos
      · rw [← hsplit]
        simp [List.isPrefixOf_iff_prefix]
      · show fenceAt (ws1 ++ (encodeJson (Json.obj fl) ++
          (ws2 ++ ("```".data ++ post)))) = some (encodeJson (Json.obj fl))
        rw [hshape, hobj]
        exact fenceAt_exact ws1 (encodeFieldList fl) _ hws1 hmid hclose
    unfold parse_json
    rw [hcontains, hfind]
    simpa using hdec
  · intro fl pre post hpre hpost hnotag hdec
    have hobj : encodeJson (Json.obj fl) = '{' :: (encodeFieldList fl ++ ['}']) := rfl
    have hgreedy : greedySearch (pre ++ (encodeJson (Json.obj fl) ++ post)) =
        some (encodeJson (Json.obj fl)) := by
      rw [greedySearch_skip pre _ hpre]
      have hshape : encodeJson (Json.obj fl) ++ post =
          '{' :: (encodeFieldList fl ++ '}' :: post) := by
        rw [hobj]
        simp
      rw [hshape, greedySearch_at (encodeFieldList fl) post hpost, hobj]
    unfold parse_json
    rw [hnotag, hgreedy]
    simpa using hdec

/-- C4 witness: a concrete fenced reply and a concrete unfenced reply,
both recovered exactly. -/
theorem c4_parse_json_round_trip_witness :
    parse_json ("reply: ".data ++ (fenceTag ++ ([' '] ++
        (encodeJson (Json.obj [("a", Json.num 1)]) ++
          (['\n'] ++ ("```".data ++ " done".data)))))) =
      some (Json.obj [("a", Json.num 1)]) ∧
    parse_json ("text ".data ++ (encodeJson (Json.obj [("b", Json.num 2)]) ++
        " tail".data)) = some (Json.obj [("b", Json.num 2)]) :=
  ⟨c4_parse_json_round_trip.1 [("a", Json.num 1)] "reply: ".data [' '] ['\n']
      " done".data (by decide) (by decide) (by decide) (by decide) rfl,
   c4_parse_json_round_trip.2 [("b", Json.num 2)] "text ".data " tail".data
      (by decide) (by decide) (by decide) rfl⟩

/-! ### Item Extractor and Batch Orchestrator (process_image and
upload_image, app.py lines 60-148)

External collaborators are oracles in an environment: libmagic's MIME
sniffing, the remote model call (which may raise, modelled as Except),
zipfile's archive listing (raising on a corrupt archive), and the
timestamp.  Raw bytes are opaque; their content matters only through
the oracles. -/

/-- Opaque byte strings. -/
abbrev Bytes := List Nat

/-- Python str.startswith, on the character lists (computes by
kernel reduction, unlike String.startsWith). -/
def strStartsWith (s p : String) : Bool := p.data.isPrefixOf s.data

/-- Python str.endswith, on the character lists. -/
def strEndsWith (s p : String) : Bool := p.data.reverse.isPrefixOf s.data.reverse

/-- Python str.lower (ASCII). -/
def strToLower (s : String) : String := String.mk (s.data.map Char.toLower)

/-- One zipfile member: name, directory flag, content. -/
structure ZipEntry where
  filename : String
  is_dir : Bool
  data : Bytes

/-- One uploaded multipart file. -/
structure UploadFile where
  filename : String
  content : Bytes

/-- The external collaborators of the handler. -/
structure Env where
  magic_mime : Bytes → String
  generate_content : Bytes → String → Except String String
  zip_open : Bytes → Except String (List ZipEntry)
  now_iso : String

/-- Python truthiness of a JSON-like value (`if data:` in app.py). -/
def truthy : Json → Bool
  | Json.null => false
  | Json.bool b => b
  | Json.num n => !(n == 0)
  | Json.fnum q => !(q == 0)
  | Json.str s => !(s == "")
  | Json.arr l => !l.isEmpty
  | Json.obj l => !l.isEmpty
  | Json.inf => true
  | Json.negInf => true
  | Json.nan => true

/-- Python item assignment d[key] = v on a value: a TypeError for
non-dicts, in-place update or append for dicts. -/
def dictSet (j : Json) (k : String) (v : Json) : Except String Json :=
  match j with
  | Json.obj l => Except.ok (Json.obj (setKey l k v))
  | _ => Except.error "TypeError"

/-- process_image (app.py lines 60-89): MIME-gate the bytes, call the
model, parse its reply; on a truthy record stamp the timestamp and
normalize.  Returns ok none where Python returns None; propagates
exceptions of the oracles as Except.error. -/
def process_image (env : Env) (image_data : Bytes) :
    Except String (Option Json) :=
  let mime := env.magic_mime image_data
  if !(strStartsWith mime "image/") then Except.ok none
  else
    match env.generate_content image_data mime with
    | Except.error e => Except.error e
    | Except.ok text =>
      match parse_json text.data with
      | none => Except.ok none
      | some data =>
        if truthy data then
          match dictSet data "timestamp" (Json.str env.now_iso) with
          | Except.error e => Except.error e
          | Except.ok data2 => Except.ok (some (clean_empty data2))
        else Except.ok (some data)

/-- One loop body of upload_image for a single image: extract, and on a
truthy record attach the filename and yield it; otherwise yield
nothing. -/
def item_result (env : Env) (name : String) (data : Bytes) :
    Except String (List Json) :=
  match process_image env data with
  | Except.error err => Except.error err
  | Except.ok none => Except.ok []
  | Except.ok (some j) =>
    if truthy j then
      match dictSet j "filename" (Json.str name) with
      | Except.error err => Except.error err
      | Except.ok j2 => Except.ok [j2]
    else Except.ok []

/-- The inner zip loop of upload_image (lines 122-130): non-directory
entries in archive order, entry names attached un-lowercased. -/
def run_zip_entries (env : Env) : List ZipEntry → Except String (List Json)
  | [] => Except.ok []
  | e :: rest =>
    if e.is_dir then run_zip_entries env rest
    else
      match item_result env e.filename e.data with
      | Except.error err => Except.error err
      | Except.ok h =>
        match run_zip_entries env rest with
        | Except.error err => Except.error err
        | Except.ok rs => Except.ok (h ++ rs)

/-- The outer file loop of upload_image (lines 115-135): the lowered
filename decides zip expansion and is the attached name for plain
files. -/
def run_files (env : Env) : List UploadFile → Except String (List Json)
  | [] => Except.ok []
  | f :: rest =>
    match (if strEndsWith (strToLower f.filename) ".zip" then
        match env.zip_open f.content with
        | Except.error err => Except.error err
        | Except.ok entries => run_zip_entries env entries
      else item_result env (strToLower f.filename) f.content) with
    | Except.error err => Except.error err
    | Except.ok h =>
      match run_files env rest with
      | Except.error err => Except.error err
      | Except.ok rs => Except.ok (h ++ rs)

/-- HTTP outcomes of POST /upload. -/
inductive Response where
  | ok : List Json → Response
  | badRequest : String → Response
  | serverError : String → Response

/-- upload_image (lines 98-148) as a function from uploaded files to
the response: empty-field 400, per-item processing with exceptions
caught into the 500 branch, empty-result 400, 200 otherwise. -/
def upload_image (env : Env) (files : List UploadFile) : Response :=
  if files.isEmpty then Response.badRequest "No files uploaded"
  else
    match run_files env files with
    | Except.error e =>
      Response.serverError ("Invoice processing failed: " ++ e)
    | Except.ok results =>
      if results.isEmpty then
        Response.badRequest "No valid images found to process"
      else Response.ok results

/-- Modelled from the spec (section 3, BatchResult): request-order
expansion of the uploaded items — a plain item stands for its lowered
name and bytes, a zip item for its non-directory entries in archive
order.  Spec-side vehicle for the order-preservation claim. -/
def flatten_items (env : Env) :
    List UploadFile → Except String (List (String × Bytes))
  | [] => Except.ok []
  | f :: rest =>
    match (if strEndsWith (strToLower f.filename) ".zip" then
        match env.zip_open f.content with
        | Except.error err => Except.error err
        | Except.ok entries =>
          Except.ok ((entries.filter (fun e => !e.is_dir)).map
            (fun e => (e.filename, e.data)))
      else Except.ok [(strToLower f.filename, f.content)]) with
    | Except.error err => Except.error err
    | Except.ok h =>
      match flatten_items env rest with
      | Except.error err => Except.error err
      | Except.ok hs => Except.ok (h ++ hs)

/-- Per-item extraction over an already-flattened item list, dropping
failures, keeping order. -/
def extract_items (env : Env) :
    List (String × Bytes) → Except String (List Json)
  | [] => Except.ok []
  | nb :: rest =>
    match item_result env nb.1 nb.2 with
    | Except.error err => Except.error err
    | Except.ok h =>
      match extract_items env rest with
      | Except.error err => Except.error err
      | Except.ok rs => Except.ok (h ++ rs)

/-! ### C3: error contract of the Item Extractor -/

/-- A non-image upload environment. -/
def envTextPlain : Env :=
  ⟨fun _ => "text/plain", fun _ _ => Except.ok "x",
    fun _ => Except.error "z", "2026-01-01T00:00:00+00:00"⟩

/-- An image whose model reply holds no JSON. -/
def envNoJson : Env :=
  ⟨fun _ => "image/png", fun _ _ => Except.ok "no structured reply",
    fun _ => Except.error "z", "2026-01-01T00:00:00+00:00"⟩

/-- An image whose model call raises. -/
def envModelDown : Env :=
  ⟨fun _ => "image/png", fun _ _ => Except.error "model down",
    fun _ => Except.error "z", "2026-01-01T00:00:00+00:00"⟩

/-- C3 counterexample: an exception can escape the Item Extractor.  On
image bytes whose remote-model call raises, process_image neither
returns a record nor null: the exception propagates (it is only caught
at the upload boundary, app.py line 146). -/
theorem c3_counterexample :
    process_image envModelDown ([] : Bytes) = Except.error "model down" := rfl

/-- C3 amended: the Item Extractor returns null (never raises) when
MIME sniffing does not classify the bytes as an image and when the
model reply cannot be parsed; but an exception raised by the remote
model call itself escapes the extractor and aborts the batch. -/
theorem c3_amended (env : Env) (b : Bytes) :
    (strStartsWith (env.magic_mime b) "image/" = false →
      process_image env b = Except.ok none) ∧
    (∀ t, strStartsWith (env.magic_mime b) "image/" = true →
      env.generate_content b (env.magic_mime b) = Except.ok t →
      parse_json t.data = none →
      process_image env b = Except.ok none) ∧
    (∀ e, strStartsWith (env.magic_mime b) "image/" = true →
      env.generate_content b (env.magic_mime b) = Except.error e →
      process_image env b = Except.error e) := by
  refine ⟨?_, ?_, ?_⟩
  · intro h
    simp [process_image, h]
  · intro t hm ht hp
    simp [process_image, hm, ht, hp]
  · intro e hm he
    simp [process_image, hm, he]

/-- C3 amended, witness: the three branches at concrete inputs. -/
theorem c3_amended_witness :
    process_image envTextPlain ([] : Bytes) = Except.ok none ∧
    process_image envNoJson ([] : Bytes) = Except.ok none ∧
    process_image envModelDown ([] : Bytes) = Except.error "model down" :=
  ⟨(c3_amended envTextPlain []).1 rfl,
   (c3_amended envNoJson []).2.1 "no structured reply" rfl rfl rfl,
   (c3_amended envModelDown []).2.2 "model down" rfl rfl⟩

/-! ### C5: order preservation of the batch -/

theorem extract_items_append (env : Env) (a b : List (String × Bytes)) :
    extract_items env (a ++ b) =
      match extract_items env a with
      | Except.error e => Except.error e
      | Except.ok xs =>
        match extract_items env b with
        | Except.error e => Except.error e
        | Except.ok ys => Except.ok (xs ++ ys) := by
  induction a with
  | nil =>
    cases hb : extract_items env b <;> simp [extract_items, hb]
  | cons nb rest ih =>
    simp only [List.cons_append, extract_items]
    cases hi : item_result env nb.1 nb.2 with
    | error e => simp
    | ok h =>
      cases hr : extract_items env rest with
      | error e => simp [ih, hr]
      | ok xs =>
        cases hb : extract_items env b with
        | error e => simp [ih, hr, hb]
        | ok ys => simp [ih, hr, hb, List.append_assoc]

theorem run_zip_entries_extract (env : Env) (entries : List ZipEntry) :
    run_zip_entries env entries =
      extract_items env ((entries.filter (fun e => !e.is_dir)).map
        (fun e => (e.filename, e.data))) := by
  induction entries with
  | nil => rfl
  | cons e rest ih =>
    by_cases hd : e.is_dir
    · simp [run_zip_entries, hd, List.filter_cons, ih]
    · simp [run_zip_entries, hd, List.filter_cons, ih, extract_items]

theorem run_files_append (env : Env) (a b : List UploadFile) :
    run_files env (a ++ b) =
      match run_files env a with
      | Except.error e => Except.error e
      | Except.ok xs =>
        match run_files env b with
        | Except.error e => Except.error e
        | Except.ok ys => Except.ok (xs ++ ys) := by
  induction a with
  | nil =>
    cases hb : run_files env b <;> simp [run_files, hb]
  | cons f rest ih =>
    simp only [List.cons_append, run_files]
    cases hs : (if strEndsWith (strToLower f.filename) ".zip" then
        match env.zip_open f.content with
        | Except.error err => Except.error err
        | Except.ok entries => run_zip_entries env entries
      else item_result env (strToLower f.filename) f.content) with
    | error e => simp
    | ok h =>
      cases hr : run_files env rest with
      | error e => simp [ih, hr]
      | ok xs =>
        cases hb : run_files env b with
        | error e => simp [ih, hr, hb]
        | ok ys => simp [ih, hr, hb, List.append_assoc]

theorem run_files_no_zip (env : Env) (files : List UploadFile)
    (h : ∀ f ∈ files, strEndsWith (strToLower f.filename) ".zip" = false) :
    run_files env files =
      extract_items env (files.map (fun f => (strToLower f.filename, f.content))) := by
  induction files with
  | nil => rfl
  | cons f rest ih =>
    have hf : strEndsWith (strToLower f.filename) ".zip" = false :=
      h f (List.mem_cons_self _ _)
    have ih' := ih (fun g hg => h g (List.mem_cons_of_mem _ hg))
    simp only [run_files, List.map_cons, extract_items, hf, Bool.false_eq_true,
      if_false, ih']

theorem run_files_flatten (env : Env) (files : List UploadFile) :
    ∀ rs, run_files env files = Except.ok rs →
      ∃ items, flatten_items env files = Except.ok items ∧
        extract_items env items = Except.ok rs := by
  induction files with
  | nil =>
    intro rs h
    cases h
    exact ⟨[], rfl, rfl⟩
  | cons f rest ih =>
    intro rs h
    rw [run_files] at h
    by_cases hz : strEndsWith (strToLower f.filename) ".zip" = true
    · simp only [hz, if_true] at h
      cases ho : env.zip_open f.content with
      | error e => simp [ho] at h
      | ok entries =>
        simp only [ho] at h
        cases hz1 : run_zip_entries env entries with
        | error e => simp [hz1] at h
        | ok h1 =>
          cases hr : run_files env rest with
          | error e => simp [hz1, hr] at h
          | ok rs2 =>
            simp only [hz1, hr] at h
            cases h
            obtain ⟨items2, hfl2, hex2⟩ := ih rs2 hr
            refine ⟨(entries.filter (fun e => !e.is_dir)).map
              (fun e => (e.filename, e.data)) ++ items2, ?_, ?_⟩
            · rw [flatten_items]
              simp [hz, ho, hfl2]
            · rw [extract_items_append, ← run_zip_entries_extract env entries,
                hz1, hex2]
    · have hz' : strEndsWith (strToLower f.filename) ".zip" = false := by
        simpa using hz
      simp only [hz', Bool.false_eq_true, if_false] at h
      cases hi : item_result env (strToLower f.filename) f.content with
      | error e => simp [hi] at h
      | ok h1 =>
        cases hr : run_files env rest with
        | error e => simp [hi, hr] at h
        | ok rs2 =>
          simp only [hi, hr] at h
          cases h
          obtain ⟨items2, hfl2, hex2⟩ := ih rs2 hr
          refine ⟨(strToLower f.filename, f.content) :: items2, ?_, ?_⟩
          · rw [flatten_items]
            simp [hz', hfl2]
          · rw [extract_items]
            simp [hi, hex2]

/-- C5: order preservation.  First part: a batch with no archives equals
per-item extraction of the uploads in request order (lowered names
attached), so output order is input order with failures omitted.
Second part: any successful batch factors through the request-order
flattening — archive entries, directories skipped, inline at their
item's position — followed by order-preserving per-item extraction. -/
theorem c5_order_preservation (env : Env) (files : List UploadFile) :
    ((∀ f ∈ files, strEndsWith (strToLower f.filename) ".zip" = false) →
      run_files env files =
        extract_items env (files.map (fun f => (strToLower f.filename, f.content)))) ∧
    (∀ rs, run_files env files = Except.ok rs →
      ∃ items, flatten_items env files = Except.ok items ∧
        extract_items env items = Except.ok rs) :=
  ⟨run_files_no_zip env files, run_files_flatten env files⟩

/-- A concrete two-file non-archive batch. -/
def twoFiles : List UploadFile := [⟨"A.PNG", []⟩, ⟨"b.jpg", []⟩]

/-- C5 witness: both parts at a concrete two-file batch. -/
theorem c5_order_preservation_witness :
    run_files envTextPlain twoFiles =
      extract_items envTextPlain
        (twoFiles.map (fun f => (strToLower f.filename, f.content))) ∧
    ∃ items, flatten_items envTextPlain twoFiles = Except.ok items ∧
      extract_items envTextPlain items = Except.ok [] :=
  ⟨(c5_order_preservation envTextPlain twoFiles).1 (by decide),
   (c5_order_preservation envTextPlain twoFiles).2 [] rfl⟩

/-! ### C6 and C7: the two 400 conditions and the batch-fatal zip error -/

/-- C6: a non-empty upload whose processing completes with an empty
result list draws the 400 "No valid images found to process" response,
distinct from the 400 "No files uploaded" drawn by an empty upload,
which is decided before any processing. -/
theorem c6_empty_result (env : Env) (files : List UploadFile) :
    (files ≠ [] → run_files env files = Except.ok [] →
      upload_image env files = Response.badRequest "No valid images found to process") ∧
    upload_image env [] = Response.badRequest "No files uploaded" ∧
    ("No valid images found to process" : String) ≠ "No files uploaded" := by
  refine ⟨?_, rfl, by decide⟩
  intro hne hrun
  have hemp : files.isEmpty = false := by
    cases files with
    | nil => exact absurd rfl hne
    | cons f r => rfl
  unfold upload_image
  rw [hemp, hrun]
  simp

/-- C6 witness: one non-image file gives the empty-batch 400. -/
theorem c6_empty_result_witness :
    upload_image envTextPlain [⟨"a.txt", []⟩] =
      Response.badRequest "No valid images found to process" :=
  (c6_empty_result envTextPlain [⟨"a.txt", []⟩]).1 (List.cons_ne_nil _ _) rfl

/-- C7: an upload item named *.zip (case-insensitively) whose bytes the
zip library rejects aborts the whole request once reached: the handler
returns 500 with the underlying message appended to "Invoice processing
failed: ", and no result list. -/
theorem c7_bad_zip_500 (env : Env) (good : List UploadFile) (bz : UploadFile)
    (rest : List UploadFile) (gs : List Json) (e : String)
    (hg : run_files env good = Except.ok gs)
    (hzip : strEndsWith (strToLower bz.filename) ".zip" = true)
    (he : env.zip_open bz.content = Except.error e) :
    upload_image env (good ++ bz :: rest) =
      Response.serverError ("Invoice processing failed: " ++ e) := by
  have hb : run_files env (bz :: rest) = Except.error e := by
    rw [run_files]
    simp [hzip, he]
  have hrun : run_files env (good ++ bz :: rest) = Except.error e := by
    rw [run_files_append, hg, hb]
  have hemp : (good ++ bz :: rest).isEmpty = false := by
    cases good <;> rfl
  unfold upload_image
  rw [hemp, hrun]
  simp

/-- C7 witness: a single corrupt zip item gives the 500 with the
library's message. -/
theorem c7_bad_zip_500_witness :
    upload_image envModelDown [⟨"BAD.Zip", []⟩] =
      Response.serverError ("Invoice processing failed: " ++ "z") :=
  c7_bad_zip_500 envModelDown [] ⟨"BAD.Zip", []⟩ [] [] "z" rfl (by decide) rfl

/-! ### Progress Tracker (simulate_progress, the global counter, C8/C10)

Single-batch concurrency is modelled by event traces: the handler's
reset, the background thread's writes 1..100 (simulate_progress, lines
53-57), and the response event.  The extraction loop never writes the
counter, so only the order of writes relative to the response matters.
On paths that reach line 137 the join places all 100 writes before the
response; on the exception path the join is skipped, and the response
may occur after any k writes (the thread keeps running). -/

/-- The write sequence of simulate_progress: for i in range(1, 101). -/
def threadWrites : List Nat := List.range' 1 100

/-- Events touching or observing the shared counter. -/
inductive Ev where
  | reset : Ev
  | write : Nat → Ev
  | respond : Response → Ev

/-- Effect of one event on the counter. -/
def applyEv (p : Nat) : Ev → Nat
  | Ev.reset => 0
  | Ev.write i => i
  | Ev.respond _ => p

/-- Counter value after the first n events, starting from p0. -/
def progAfter (p0 : Nat) (tr : List Ev) (n : Nat) : Nat :=
  (tr.take n).foldl applyEv p0

/-- Counter value at the moment of the (first) response event. -/
def progAtResponse (p0 : Nat) : List Ev → Option Nat
  | [] => none
  | e :: rest =>
    match e with
    | Ev.respond _ => some p0
    | _ => progAtResponse (applyEv p0 e) rest

/-- Event trace of one POST /upload (single in-flight batch, schedule
parameter k = number of thread writes completed before an un-joined
response). -/
def uploadTrace (env : Env) (files : List UploadFile) (k : Nat) : List Ev :=
  Ev.reset ::
    (if files.isEmpty then
      [Ev.respond (Response.badRequest "No files uploaded")]
    else
      match run_files env files with
      | Except.ok results =>
        (threadWrites.map Ev.write) ++
          [Ev.respond (if results.isEmpty then
              Response.badRequest "No valid images found to process"
            else Response.ok results)]
      | Except.error e =>
        ((threadWrites.take k).map Ev.write) ++
          Ev.respond (Response.serverError ("Invoice processing failed: " ++ e)) ::
            ((threadWrites.drop k).map Ev.write))

/-- GET /progress (app.py lines 92-94): jsonify of the shared counter. -/
def get_progress (p : Nat) : Json := Json.obj [("progress", Json.num (p : Int))]

/-- The trace never decreases the counter when read from value p. -/
def monoFrom (p : Nat) : List Ev → Bool
  | [] => true
  | e :: l => decide (p ≤ applyEv p e) && monoFrom (applyEv p e) l

/-- A value list is ascending from p. -/
def ascFrom (p : Nat) : List Nat → Bool
  | [] => true
  | x :: xs => decide (p ≤ x) && ascFrom x xs

theorem monoFrom_le_foldl (l : List Ev) :
    ∀ p n, monoFrom p l = true → p ≤ (l.take n).foldl applyEv p := by
  induction l with
  | nil => intro p n _; simp
  | cons e l ih =>
    intro p n h
    rw [monoFrom] at h
    rw [Bool.and_eq_true] at h
    obtain ⟨h1, h2⟩ := h
    have hp : p ≤ applyEv p e := of_decide_eq_true h1
    cases n with
    | zero => simp
    | succ n =>
      simp only [List.take_succ_cons, List.foldl_cons]
      exact le_trans hp (ih (applyEv p e) n h2)

theorem monoFrom_mono (l : List Ev) :
    ∀ p i j, monoFrom p l = true → i ≤ j →
      (l.take i).foldl applyEv p ≤ (l.take j).foldl applyEv p := by
  induction l with
  | nil => intro p i j _ _; simp
  | cons e l ih =>
    intro p i j h hij
    rw [monoFrom] at h
    rw [Bool.and_eq_true] at h
    obtain ⟨h1, h2⟩ := h
    have hp : p ≤ applyEv p e := of_decide_eq_true h1
    cases i with
    | zero =>
      cases j with
      | zero => simp
      | succ j =>
        simp only [List.take_zero, List.foldl_nil, List.take_succ_cons,
          List.foldl_cons]
        exact le_trans hp (monoFrom_le_foldl l (applyEv p e) j h2)
    | succ i =>
      cases j with
      | zero => exact absurd hij (by simp)
      | succ j =>
        simp only [List.take_succ_cons, List.foldl_cons]
        exact ih (applyEv p e) i j h2 (Nat.succ_le_succ_iff.mp hij)

theorem monoFrom_append (a b : List Ev) :
    ∀ p, monoFrom p (a ++ b) =
      (monoFrom p a && monoFrom (a.foldl applyEv p) b) := by
  induction a with
  | nil => intro p; simp [monoFrom]
  | cons e a ih =>
    intro p
    simp only [List.cons_append, monoFrom, List.foldl_cons, List.append_eq,
      ih, Bool.and_assoc]

theorem monoFrom_writes (xs : List Nat) :
    ∀ p, monoFrom p (xs.map Ev.write) = ascFrom p xs := by
  induction xs with
  | nil => intro p; rfl
  | cons x xs ih =>
    intro p
    simp only [List.map_cons, monoFrom, ascFrom, applyEv, ih]

theorem foldl_writes (xs : List Nat) :
    ∀ p, (xs.map Ev.write).foldl applyEv p = xs.foldl (fun _ x => x) p := by
  induction xs with
  | nil => intro p; rfl
  | cons x xs ih =>
    intro p
    simp only [List.map_cons, List.foldl_cons, applyEv, ih]

theorem ascFrom_take (xs : List Nat) :
    ∀ p k, ascFrom p xs = true → ascFrom p (xs.take k) = true := by
  induction xs with
  | nil => intro p k _; simp [ascFrom]
  | cons x xs ih =>
    intro p k h
    rw [ascFrom] at h
    rw [Bool.and_eq_true] at h
    obtain ⟨h1, h2⟩ := h
    cases k with
    | zero => rfl
    | succ k =>
      simp only [List.take_succ_cons, ascFrom, h1, Bool.true_and]
      exact ih x k h2

theorem ascFrom_drop (xs : List Nat) :
    ∀ p k, ascFrom p xs = true →
      ascFrom ((xs.take k).foldl (fun _ x => x) p) (xs.drop k) = true := by
  induction xs with
  | nil => intro p k _; simp [ascFrom]
  | cons x xs ih =>
    intro p k h
    rw [ascFrom] at h
    rw [Bool.and_eq_true] at h
    obtain ⟨h1, h2⟩ := h
    cases k with
    | zero => simpa [ascFrom, h1] using h2
    | succ k =>
      simp only [List.take_succ_cons, List.drop_succ_cons, List.foldl_cons]
      exact ih x k h2

theorem threadWrites_le : ∀ x ∈ threadWrites, x ≤ 100 := by decide

theorem ascFrom_threadWrites : ascFrom 0 threadWrites = true := by decide

theorem threadWrites_foldl : threadWrites.foldl (fun _ x => x) 0 = 100 := by
  decide

theorem foldl_take_le (l : List Ev) :
    ∀ p n, p ≤ 100 → (∀ i, Ev.write i ∈ l → i ≤ 100) →
      (l.take n).foldl applyEv p ≤ 100 := by
  induction l with
  | nil => intro p n hp _; simpa using hp
  | cons e l ih =>
    intro p n hp hw
    cases n with
    | zero => simpa using hp
    | succ n =>
      simp only [List.take_succ_cons, List.foldl_cons]
      refine ih (applyEv p e) n ?_ (fun i hi => hw i (List.mem_cons_of_mem _ hi))
      cases e with
      | reset => exact Nat.zero_le 100
      | write i => exact hw i (List.mem_cons_self _ _)
      | respond r => exact hp

theorem write_mem_map (xs : List Nat) (i : Nat)
    (h : Ev.write i ∈ xs.map Ev.write) : i ∈ xs := by
  obtain ⟨x, hx, he⟩ := List.mem_map.mp h
  injection he with h2
  subst h2
  exact hx

theorem progAtResponse_writes (xs : List Nat) :
    ∀ p r rest,
      progAtResponse p (xs.map Ev.write ++ Ev.respond r :: rest) =
        some (xs.foldl (fun _ x => x) p) := by
  induction xs with
  | nil => intro p r rest; rfl
  | cons x xs ih =>
    intro p r rest
    simp only [List.map_cons, List.cons_append, progAtResponse, applyEv,
      List.foldl_cons]
    exact ih x r rest

theorem uploadTrace_tail (env : Env) (files : List UploadFile) (k : Nat) :
    ∃ tail, uploadTrace env files k = Ev.reset :: tail ∧
      monoFrom 0 tail = true ∧
      (∀ i, Ev.write i ∈ tail → i ≤ 100) := by
  refine ⟨_, rfl, ?_, ?_⟩
  · by_cases he : files.isEmpty = true
    · simp [he, monoFrom, applyEv]
    · have he' : files.isEmpty = false := by simpa using he
      rw [he', if_neg (by simp : ¬ (false = true))]
      cases hr : run_files env files with
      | ok results =>
        rw [monoFrom_append, monoFrom_writes, ascFrom_threadWrites]
        simp [monoFrom, applyEv]
      | error e =>
        rw [monoFrom_append, monoFrom_writes,
          ascFrom_take threadWrites 0 k ascFrom_threadWrites]
        simp only [Bool.true_and, monoFrom, applyEv, decide_True,
          monoFrom_writes, foldl_writes]
        simp only [monoFrom_writes] at *
        rw [ascFrom_drop threadWrites 0 k ascFrom_threadWrites]
        simp
  · intro i hi
    by_cases he : files.isEmpty = true
    · rw [he] at hi
      simp at hi
    · have he' : files.isEmpty = false := by simpa using he
      rw [he', if_neg (by simp : ¬ (false = true))] at hi
      cases hr : run_files env files with
      | ok results =>
        rw [hr] at hi
        rcases List.mem_append.mp hi with h1 | h2
        · exact threadWrites_le i (write_mem_map _ i h1)
        · simp at h2
      | error e =>
        rw [hr] at hi
        rcases List.mem_append.mp hi with h1 | h2
        · exact threadWrites_le i
            (List.take_subset k threadWrites (write_mem_map _ i h1))
        · rcases List.mem_cons.mp h2 with h3 | h4
          · cases h3
          · exact threadWrites_le i
              (List.drop_subset k threadWrites (write_mem_map _ i h4))

/-- C8 amended: during a single in-flight batch the counter is reset to
0 at the start, reads after the reset are non-decreasing and bounded by
100, and on every path that reaches the join — any batch whose item
loop completes, successful or empty — the counter is 100 when the
response is returned.  (On the exception path the join is skipped, so
the 500 response can be returned before the advance finishes.) -/
theorem c8_amended (env : Env) (files : List UploadFile) (k p0 : Nat) :
    progAfter p0 (uploadTrace env files k) 1 = 0 ∧
    (∀ i j, i ≤ j →
      progAfter p0 (uploadTrace env files k) (i + 1) ≤
        progAfter p0 (uploadTrace env files k) (j + 1)) ∧
    (∀ i, progAfter p0 (uploadTrace env files k) (i + 1) ≤ 100) ∧
    (∀ rs, run_files env files = Except.ok rs → files.isEmpty = false →
      progAtResponse p0 (uploadTrace env files k) = some 100) := by
  obtain ⟨tail, htr, hmono, hbound⟩ := uploadTrace_tail env files k
  refine ⟨?_, ?_, ?_, ?_⟩
  · rw [htr]; rfl
  · intro i j hij
    rw [htr]
    show ((Ev.reset :: tail).take (i + 1)).foldl applyEv p0 ≤
      ((Ev.reset :: tail).take (j + 1)).foldl applyEv p0
    simp only [List.take_succ_cons, List.foldl_cons, applyEv]
    exact monoFrom_mono tail 0 i j hmono hij
  · intro i
    rw [htr]
    show ((Ev.reset :: tail).take (i + 1)).foldl applyEv p0 ≤ 100
    simp only [List.take_succ_cons, List.foldl_cons, applyEv]
    exact foldl_take_le tail 0 i (by simp) hbound
  · intro rs hrun hemp
    unfold uploadTrace
    rw [hemp, if_neg (by simp : ¬ (false = true)), hrun]
    have h1 : progAtResponse p0 (Ev.reset :: (threadWrites.map Ev.write ++
        [Ev.respond (if rs.isEmpty then
            Response.badRequest "No valid images found to process"
          else Response.ok rs)])) =
        progAtResponse 0 (threadWrites.map Ev.write ++
          [Ev.respond (if rs.isEmpty then
              Response.badRequest "No valid images found to process"
            else Response.ok rs)]) := rfl
    rw [h1, progAtResponse_writes, threadWrites_foldl]

/-- C8 counterexample: the original claim fails on the exception path.
For a corrupt-zip batch the join at line 137 is skipped, so the 500
response can be returned while the counter still reads 0. -/
theorem c8_counterexample :
    progAtResponse 7 (uploadTrace envModelDown [⟨"BAD.Zip", ([] : Bytes)⟩] 0) ≠
      some 100 := by
  have h : progAtResponse 7
      (uploadTrace envModelDown [⟨"BAD.Zip", ([] : Bytes)⟩] 0) = some 0 := rfl
  rw [h]
  simp

/-- C8 amended, witness: a completed single-file batch at a concrete
schedule. -/
theorem c8_amended_witness :
    progAfter 7 (uploadTrace envTextPlain [⟨"a.txt", ([] : Bytes)⟩] 0) 1 = 0 ∧
    progAfter 7 (uploadTrace envTextPlain [⟨"a.txt", ([] : Bytes)⟩] 0) 3 ≤
      progAfter 7 (uploadTrace envTextPlain [⟨"a.txt", ([] : Bytes)⟩] 0) 5 ∧
    progAfter 7 (uploadTrace envTextPlain [⟨"a.txt", ([] : Bytes)⟩] 0) 51 ≤ 100 ∧
    progAtResponse 7 (uploadTrace envTextPlain [⟨"a.txt", ([] : Bytes)⟩] 0) =
      some 100 :=
  ⟨(c8_amended envTextPlain [⟨"a.txt", []⟩] 0 7).1,
   (c8_amended envTextPlain [⟨"a.txt", []⟩] 0 7).2.1 2 4 (by decide),
   (c8_amended envTextPlain [⟨"a.txt", []⟩] 0 7).2.2.1 50,
   (c8_amended envTextPlain [⟨"a.txt", []⟩] 0 7).2.2.2 [] rfl rfl⟩

/-- C10: every POST /upload sets the shared counter to 0 before the
file-field validation, so even the 400 "No files uploaded" path — which
starts no processing and no progress thread — mutates the state served
by GET /progress: whatever the counter held before, it reads 0 at and
after the rejected request. -/
theorem c10_reset_before_validation (env : Env) (k p0 : Nat) :
    uploadTrace env [] k =
      [Ev.reset, Ev.respond (Response.badRequest "No files uploaded")] ∧
    progAfter p0 (uploadTrace env [] k) 1 = 0 ∧
    progAtResponse p0 (uploadTrace env [] k) = some 0 ∧
    upload_image env [] = Response.badRequest "No files uploaded" ∧
    get_progress (progAfter p0 (uploadTrace env [] k) 2) =
      Json.obj [("progress", Json.num 0)] :=
  ⟨rfl, rfl, rfl, rfl, rfl⟩
